import Mathlib

/-!
# Verification of the utatle_back song-quiz backend (`src/app.js`)

Shallow embedding of the core pipeline of `src/app.js`:

* the coordinate codec (`makeCode` / `parseCode`),
* the shared string-valued cache (get/set view of the LRU store),
* the translation batcher (`deeplTranslateLinesKoToJa`),
* the by-month sampler (`pickOneFromMonth`),
* the genre-filtered sampler (`pickByGenre`) and its `norm` helper,
* the response assembler (`packResponseAsync` / `makeRubyFromJaLineAsync`).

JS numbers that are used as non-negative integers are modelled as `Nat`,
JS strings as Lean `String` (a list of Unicode scalar values, matching the
code-point view that the JS code manipulates), fallible or absent values as
`Option`.  Remote HTTP calls, randomness and the phonetic converter are
modelled as explicit oracle functions passed in as parameters.
-/

set_option autoImplicit false

namespace Utatle

/- ───────────────── Cache ─────────────────

The source uses one shared `LRUCache` (`max: 2000, ttl: 1h`).  The claims
only exercise its `get`/`set` interface on string-valued namespaces
(`ko->ja:`, `ruby:`), never capacity eviction or TTL expiry, so the store is
modelled as an association list where `set` shadows earlier entries. -/

/-- The shared cache, restricted to the string-valued namespaces. -/
abbrev Cache := List (String × String)

/-- JS `cache.get(k)`: first (most recent) binding of `k`, if any. -/
def cacheLookup : Cache → String → Option String
  | [], _ => none
  | (k, v) :: rest, key => if k = key then some v else cacheLookup rest key

/-- JS `cache.set(k, v)`: the new binding shadows any earlier one. -/
def cacheSet (c : Cache) (k v : String) : Cache := (k, v) :: c

/-- JS `cache.get(k) || null` (and the `if (hit)` pattern): a cached empty
string is falsy in JS, so it is treated as a miss. -/
def cacheGetTruthy (c : Cache) (k : String) : Option String :=
  match cacheLookup c k with
  | none => none
  | some v => if v = "" then none else some v

/- ───────────────── Coordinate codec ───────────────── -/

/-- A `(year, month, rank)` coordinate (`{ year, month, rank }` in the JS). -/
structure Coord where
  year : Nat
  month : Nat
  rank : Nat
deriving DecidableEq, Repr

/-- The decimal digit characters, `digitChar d` being the digit for `d < 10`. -/
def digitChar (n : Nat) : Char :=
  ['0', '1', '2', '3', '4', '5', '6', '7', '8', '9'].getD n '0'

/-- Decimal representation of a `Nat`, embedding JS `String(n)` for
non-negative integers.  `natToDigitsGo` peels off the last digit; the fuel
(first argument) only serves to make the recursion structural and is always
at least the number, which suffices since `n / 10 < n` for `n ≥ 10`. -/
def natToDigitsGo : Nat → Nat → List Char
  | 0, n => [digitChar n]
  | fuel + 1, n =>
    if n < 10 then [digitChar n]
    else natToDigitsGo fuel (n / 10) ++ [digitChar (n % 10)]

/-- Decimal representation of `n`, i.e. JS `String(n)` / `` `${n}` ``. -/
def natToDigits (n : Nat) : List Char := natToDigitsGo n n

/-- JS `String(n).padStart(len, '0')` at the character-list level. -/
def padStartZeros (len : Nat) (l : List Char) : List Char :=
  List.replicate (len - l.length) '0' ++ l

/-- Source `pad2 = (n) => String(n).padStart(2, '0')`. -/
def pad2 (n : Nat) : List Char := padStartZeros 2 (natToDigits n)

/-- Source `pad3 = (n) => String(n).padStart(3, '0')`. -/
def pad3 (n : Nat) : List Char := padStartZeros 3 (natToDigits n)

/-- Source `makeCode = (y, m, rank) => ${y}${pad2(m)}${pad3(rank)}` (template literal):
year unpadded, month zero-padded to 2 digits, rank zero-padded to 3. -/
def makeCode (y m rank : Nat) : String :=
  String.mk (natToDigits y ++ pad2 m ++ pad3 rank)

/-- Value of the digit character `c`, i.e. `c.toNat - 48`; component of the
embedding of JS `Number(s)` on all-digit strings. -/
def digitVal (c : Char) : Nat := c.toNat - 48

/-- JS `Number(s)` on a string of decimal digit characters. -/
def decDigitsVal (l : List Char) : Nat :=
  l.foldl (fun a c => 10 * a + digitVal c) 0

/-- Source `parseCode`: strip non-digits (`replace(/\D/g, '')`, ASCII digits), fail
on fewer than 9 digits, read year/month/rank from the fixed slices
`[0,4)`, `[4,6)`, `[6,9)`, fail if any field is zero (`!year || ...`). -/
def parseCode (code : String) : Option Coord :=
  let s := code.data.filter Char.isDigit
  if s.length < 9 then none
  else
    let year := decDigitsVal (s.take 4)
    let month := decDigitsVal ((s.drop 4).take 2)
    let rank := decDigitsVal ((s.drop 6).take 3)
    if year = 0 ∨ month = 0 ∨ rank = 0 then none
    else some ⟨year, month, rank⟩

example : makeCode 2020 5 7 = "202005007" := by decide
example : parseCode "202005007" = some ⟨2020, 5, 7⟩ := by decide
example : parseCode (makeCode 2020 5 7) = some ⟨2020, 5, 7⟩ := by decide
example : parseCode (makeCode 0 1 1) = none := by decide
example : parseCode "20200500" = none := by decide
example : parseCode "2020-05-007-xyz" = some ⟨2020, 5, 7⟩ := by decide

/- ───────────────── Codec lemmas ───────────────── -/

theorem natToDigitsGo_stable (fuel : Nat) : ∀ fuel' n, n ≤ fuel → n ≤ fuel' →
    natToDigitsGo fuel n = natToDigitsGo fuel' n := by
  induction fuel with
  | zero =>
    intro fuel' n hn _
    interval_cases n
    cases fuel' with
    | zero => rfl
    | succ f => simp [natToDigitsGo]
  | succ fuel ih =>
    intro fuel' n hn hn'
    cases fuel' with
    | zero =>
      interval_cases n
      simp [natToDigitsGo]
    | succ f =>
      show natToDigitsGo (fuel + 1) n = natToDigitsGo (f + 1) n
      simp only [natToDigitsGo]
      by_cases h : n < 10
      · simp [h]
      · have hdiv : n / 10 < n := Nat.div_lt_self (by omega) (by omega)
        simp only [h, if_false]
        rw [ih f (n / 10) (by omega) (by omega)]

theorem natToDigits_lt {n : Nat} (h : n < 10) : natToDigits n = [digitChar n] := by
  cases n with
  | zero => rfl
  | succ m => simp [natToDigits, natToDigitsGo, h]

theorem natToDigits_ge {n : Nat} (h : 10 ≤ n) :
    natToDigits n = natToDigits (n / 10) ++ [digitChar (n % 10)] := by
  obtain ⟨m, rfl⟩ : ∃ m, n = m + 1 := ⟨n - 1, by omega⟩
  have hdiv : (m + 1) / 10 < m + 1 := Nat.div_lt_self (by omega) (by omega)
  show natToDigitsGo (m + 1) (m + 1) = _
  simp only [natToDigitsGo, Nat.not_lt.mpr h, if_false]
  rw [natToDigitsGo_stable m ((m + 1) / 10) ((m + 1) / 10) (by omega) (by omega)]
  rfl

theorem digitChar_isDigit (n : Nat) : (digitChar n).isDigit = true := by
  unfold digitChar
  rcases n with _|_|_|_|_|_|_|_|_|_|n <;> rfl

theorem digitVal_digitChar {n : Nat} (h : n < 10) : digitVal (digitChar n) = n := by
  interval_cases n <;> decide

theorem decDigitsVal_append_digit (l : List Char) (c : Char) :
    decDigitsVal (l ++ [c]) = 10 * decDigitsVal l + digitVal c := by
  simp [decDigitsVal, List.foldl_append]

theorem decDigitsVal_natToDigits (n : Nat) : decDigitsVal (natToDigits n) = n := by
  induction n using Nat.strong_induction_on with
  | _ n ih =>
    by_cases h : n < 10
    · rw [natToDigits_lt h]
      simp [decDigitsVal, digitVal_digitChar h]
    · push_neg at h
      rw [natToDigits_ge h, decDigitsVal_append_digit,
        ih (n / 10) (Nat.div_lt_self (by omega) (by omega)),
        digitVal_digitChar (Nat.mod_lt _ (by omega))]
      omega

theorem natToDigits_isDigit (n : Nat) : ∀ c ∈ natToDigits n, c.isDigit = true := by
  induction n using Nat.strong_induction_on with
  | _ n ih =>
    intro c hc
    by_cases h : n < 10
    · rw [natToDigits_lt h] at hc
      simp at hc
      simpa [hc] using digitChar_isDigit n
    · push_neg at h
      rw [natToDigits_ge h] at hc
      rcases List.mem_append.mp hc with hm | hm
      · exact ih (n / 10) (Nat.div_lt_self (by omega) (by omega)) c hm
      · simp at hm
        simpa [hm] using digitChar_isDigit (n % 10)

theorem natToDigits_length_le : ∀ (k n : Nat), n < 10 ^ (k + 1) →
    (natToDigits n).length ≤ k + 1 := by
  intro k
  induction k with
  | zero =>
    intro n hn
    rw [natToDigits_lt (by simpa using hn)]
    simp
  | succ k ih =>
    intro n hn
    by_cases h : n < 10
    · rw [natToDigits_lt h]; simp
    · push_neg at h
      rw [natToDigits_ge h]
      have hdiv : n / 10 < 10 ^ (k + 1) := by
        rw [Nat.div_lt_iff_lt_mul (by omega)]
        calc n < 10 ^ (k + 2) := hn
        _ = 10 ^ (k + 1) * 10 := by ring
      have := ih (n / 10) hdiv
      simp only [List.length_append, List.length_cons, List.length_nil]
      omega

theorem natToDigits_length_eq : ∀ (k n : Nat), 10 ^ k ≤ n → n < 10 ^ (k + 1) →
    (natToDigits n).length = k + 1 := by
  intro k
  induction k with
  | zero =>
    intro n _ hn
    rw [natToDigits_lt (by simpa using hn)]
    rfl
  | succ k ih =>
    intro n hlo hhi
    have h10 : 10 ≤ n := by
      have hp : (10 : Nat) ≤ 10 ^ (k + 1) := by
        calc (10 : Nat) = 10 ^ 1 := (pow_one 10).symm
        _ ≤ 10 ^ (k + 1) := Nat.pow_le_pow_right (by omega) (by omega)
      omega
    rw [natToDigits_ge h10]
    have hlo' : 10 ^ k ≤ n / 10 := by
      rw [Nat.le_div_iff_mul_le (by omega)]
      calc 10 ^ k * 10 = 10 ^ (k + 1) := by ring
      _ ≤ n := hlo
    have hhi' : n / 10 < 10 ^ (k + 1) := by
      rw [Nat.div_lt_iff_lt_mul (by omega)]
      calc n < 10 ^ (k + 2) := hhi
      _ = 10 ^ (k + 1) * 10 := by ring
    rw [List.length_append, ih (n / 10) hlo' hhi']
    rfl

theorem decDigitsVal_zeros_append (k : Nat) (l : List Char) :
    decDigitsVal (List.replicate k '0' ++ l) = decDigitsVal l := by
  induction k with
  | zero => rfl
  | succ k ih =>
    rw [List.replicate_succ, List.cons_append]
    exact ih

theorem decDigitsVal_padStartZeros (k : Nat) (l : List Char) :
    decDigitsVal (padStartZeros k l) = decDigitsVal l :=
  decDigitsVal_zeros_append _ l

theorem padStartZeros_length {k : Nat} {l : List Char} (h : l.length ≤ k) :
    (padStartZeros k l).length = k := by
  simp [padStartZeros]
  omega

theorem padStartZeros_isDigit {k : Nat} {l : List Char}
    (h : ∀ c ∈ l, c.isDigit = true) :
    ∀ c ∈ padStartZeros k l, c.isDigit = true := by
  intro c hc
  rcases List.mem_append.mp hc with hm | hm
  · rw [List.eq_of_mem_replicate hm]; rfl
  · exact h c hm

theorem pad2_length {m : Nat} (h : m ≤ 99) : (pad2 m).length = 2 :=
  padStartZeros_length (natToDigits_length_le 1 m (by omega))

theorem pad3_length {r : Nat} (h : r ≤ 999) : (pad3 r).length = 3 :=
  padStartZeros_length (natToDigits_length_le 2 r (by omega))

theorem decDigitsVal_pad2 (m : Nat) : decDigitsVal (pad2 m) = m := by
  rw [pad2, decDigitsVal_padStartZeros, decDigitsVal_natToDigits]

theorem decDigitsVal_pad3 (r : Nat) : decDigitsVal (pad3 r) = r := by
  rw [pad3, decDigitsVal_padStartZeros, decDigitsVal_natToDigits]

/-- C1 (amended):
Codec round-trip: for every coordinate with year in [1000,9999], month in
[1,12], rank in [1,999], decoding the encoded code yields the original
coordinate: `parseCode (makeCode y m r) = some ⟨y, m, r⟩`.  (The year must
have four decimal digits because `makeCode` does not pad the year, so codes
for years below 1000 are shorter than nine digits and are rejected by
`parseCode`.) -/
theorem makeCode_parseCode_roundtrip (y m r : Nat)
    (hy1 : 1000 ≤ y) (hy2 : y ≤ 9999) (hm1 : 1 ≤ m) (hm2 : m ≤ 12)
    (hr1 : 1 ≤ r) (hr2 : r ≤ 999) :
    parseCode (makeCode y m r) = some ⟨y, m, r⟩ := by
  have hylen : (natToDigits y).length = 4 := by
    have := natToDigits_length_eq 3 y (by norm_num; omega) (by norm_num; omega)
    simpa using this
  have hmlen : (pad2 m).length = 2 := pad2_length (by omega)
  have hrlen : (pad3 r).length = 3 := pad3_length (by omega)
  have hall : ∀ c ∈ natToDigits y ++ pad2 m ++ pad3 r, c.isDigit = true := by
    intro c hc
    rcases List.mem_append.mp hc with hm' | hm'
    · rcases List.mem_append.mp hm' with hy' | hy'
      · exact natToDigits_isDigit y c hy'
      · exact padStartZeros_isDigit (natToDigits_isDigit m) c hy'
    · exact padStartZeros_isDigit (natToDigits_isDigit r) c hm'
  have hdata : (makeCode y m r).data = natToDigits y ++ pad2 m ++ pad3 r := rfl
  rw [parseCode, hdata, List.filter_eq_self.mpr hall]
  have hlen : (natToDigits y ++ pad2 m ++ pad3 r).length = 9 := by
    simp [hylen, hmlen, hrlen]
  rw [if_neg (by omega)]
  have htake4 : (natToDigits y ++ pad2 m ++ pad3 r).take 4 = natToDigits y := by
    rw [List.append_assoc, List.take_left' hylen]
  have hdrop4 : (natToDigits y ++ pad2 m ++ pad3 r).drop 4 = pad2 m ++ pad3 r := by
    rw [List.append_assoc, List.drop_left' hylen]
  have hdrop6 : (natToDigits y ++ pad2 m ++ pad3 r).drop 6 = pad3 r := by
    rw [List.drop_left' (by simp [hylen, hmlen])]
  simp only [htake4, hdrop4, hdrop6]
  rw [List.take_left' hmlen, List.take_of_length_le (le_of_eq hrlen),
    decDigitsVal_natToDigits, decDigitsVal_pad2, decDigitsVal_pad3]
  rw [if_neg (by omega)]

/-- Witness for C1: the round-trip holds at the concrete coordinate
(2020, 5, 7), whose code is "202005007". -/
theorem makeCode_parseCode_roundtrip_witness :
    parseCode (makeCode 2020 5 7) = some ⟨2020, 5, 7⟩ :=
  makeCode_parseCode_roundtrip 2020 5 7 (by decide) (by decide) (by decide)
    (by decide) (by decide) (by decide)

/-- Counterexample to C1 as stated: with year 0 (allowed by the claimed
range [0,9999]), month 1, rank 1, the encoded code "001001" has only six
digits, so decoding yields `none`, not the original coordinate. -/
theorem makeCode_parseCode_year_zero :
    parseCode (makeCode 0 1 1) ≠ some ⟨0, 1, 1⟩ := by decide

/-- C7:
Codec robustness: `parseCode` is a total function (it never raises), and it
returns `none` exactly when its input has fewer than 9 digit characters
after stripping non-digits, or when one of the parsed fields (year from
digits [0,4), month from [4,6), rank from [6,9)) is zero. -/
theorem parseCode_none_iff (code : String) :
    parseCode code = none ↔
      ((code.data.filter Char.isDigit).length < 9
        ∨ decDigitsVal ((code.data.filter Char.isDigit).take 4) = 0
        ∨ decDigitsVal (((code.data.filter Char.isDigit).drop 4).take 2) = 0
        ∨ decDigitsVal (((code.data.filter Char.isDigit).drop 6).take 3) = 0) := by
  simp only [parseCode]
  split_ifs with h1 h2
  · exact iff_of_true rfl (Or.inl h1)
  · exact iff_of_true rfl (Or.inr h2)
  · refine iff_of_false (by simp) ?_
    rintro (h | h)
    · exact h1 h
    · exact h2 h

/-- C10:
`parseCode` only looks at the first 9 digit characters of its input: when
the input has at least 9 digits, decoding it gives the same result as
decoding just the first 9 digits. -/
theorem parseCode_take_nine (code : String)
    (h : 9 ≤ (code.data.filter Char.isDigit).length) :
    parseCode code
      = parseCode (String.mk ((code.data.filter Char.isDigit).take 9)) := by
  set l := code.data.filter Char.isDigit with hl
  have hdig : ∀ c ∈ l, c.isDigit = true := by
    intro c hc
    rw [hl] at hc
    exact List.of_mem_filter hc
  have hdata : (String.mk (l.take 9)).data = l.take 9 := rfl
  have hfilt : (l.take 9).filter Char.isDigit = l.take 9 :=
    List.filter_eq_self.mpr fun c hc => hdig c (List.take_subset 9 l hc)
  have hlen9 : (l.take 9).length = 9 := by
    rw [List.length_take]
    exact min_eq_left h
  simp only [parseCode]
  rw [hfilt, ← hl, hlen9]
  rw [if_neg (show ¬l.length < 9 by omega), if_neg (show ¬(9 : Nat) < 9 by omega)]
  have h4 : (l.take 9).take 4 = l.take 4 := by
    rw [List.take_take]
    norm_num
  have h42 : ((l.take 9).drop 4).take 2 = (l.drop 4).take 2 := by
    rw [List.drop_take, List.take_take]
    norm_num
  have h63 : ((l.take 9).drop 6).take 3 = (l.drop 6).take 3 := by
    rw [List.drop_take, List.take_take]
    norm_num
  rw [h4, h42, h63]

/-- Witness for C10: a valid 9-digit code followed by extra characters
decodes to the same coordinate as the bare code. -/
theorem parseCode_take_nine_witness :
    parseCode "202005007999" = some ⟨2020, 5, 7⟩ :=
  (parseCode_take_nine "202005007999" (by decide)).trans (by decide)

/- ───────────────── Translation batcher ─────────────────

`deeplTranslateLinesKoToJa(lines)` from `src/app.js`.  The remote DeepL call
is modelled as an oracle `remote : List String → Option (List String)`:
`none` is a non-success HTTP status (`!r.ok`), `some arr` is a success whose
`arr` is `(j?.translations || []).map((x) => x?.text ?? '')`.  The DeepL key
being configured is the Boolean `hasKey`. -/

/-- The cache key `ko->ja:${text}` for a source line. -/
def transKey (t : String) : String := "ko->ja:" ++ t

/-- Source `batch.map((t) => cache.get(...) || null)`: per-line cache state. -/
def cachedOf (c : Cache) (batch : List String) : List (Option String) :=
  batch.map (fun t => cacheGetTruthy c (transKey t))

/-- The texts of the `need` list: the lines whose cache entry is `null`,
in their original order (`cached.forEach(... need.push(...))`). -/
def needTexts : List (Option String) → List String → List String
  | some _ :: vs, _ :: ts => needTexts vs ts
  | none :: vs, t :: ts => t :: needTexts vs ts
  | _, _ => []

/-- The text parameters of the remote request issued for a batch: exactly
the needed (cache-miss) lines. -/
def batchRequest (c : Cache) (batch : List String) : List String :=
  needTexts (cachedOf c batch) batch

/-- Success path of a batch (`need.forEach(({ idx }, k) => ...)`):
walk `cached` and `batch` in parallel; each cache miss consumes the next
element of `arr` (`arr[k] ?? batch[idx]`, falling back to the source text
when DeepL returned fewer items) and writes it to the cache under the
line's `transKey`; cache hits are left untouched. -/
def fillNeeds : List String → List (Option String) → List String → Cache →
    List (Option String) × Cache
  | _, [], _, c => ([], c)
  | _, _ :: _, [], c => ([], c)
  | arr, some v :: vs, _ :: ts, c =>
    let p := fillNeeds arr vs ts c
    (some v :: p.fst, p.snd)
  | arr, none :: vs, t :: ts, c =>
    let tr := arr.headD t
    let p := fillNeeds arr.tail vs ts (cacheSet c (transKey t) tr)
    (some tr :: p.fst, p.snd)

/-- One iteration of the batch loop body of `deeplTranslateLinesKoToJa`:
look up every line, send the needed ones to the remote translator (if any),
fall back to the source text on failure (`if (!r.ok)` — no cache write),
distribute translations and cache them on success, and merge into the
output (`out[i + idx] = v ?? batch[idx]`). -/
def processBatch (remote : List String → Option (List String)) (c : Cache)
    (batch : List String) : List String × Cache :=
  let cached := cachedOf c batch
  let req := batchRequest c batch
  if req.isEmpty then
    (List.zipWith (fun v t => v.getD t) cached batch, c)
  else
    match remote req with
    | none => (List.zipWith (fun v t => v.getD t) cached batch, c)
    | some arr =>
      let p := fillNeeds arr cached batch c
      (List.zipWith (fun v t => v.getD t) p.fst batch, p.snd)

/-- The batch loop `for (let i = 0; i < lines.length; i += 40)`, threading
the cache through successive batches and concatenating the outputs.  The
fuel (first argument) makes the recursion structural; it is initialized to
`lines.length`, which bounds the number of iterations since every
iteration consumes at least one line. -/
def goBatches (remote : List String → Option (List String)) :
    Nat → Cache → List String → List String × Cache
  | 0, c, _ => ([], c)
  | _ + 1, c, [] => ([], c)
  | fuel + 1, c, t :: ts =>
    let batch := (t :: ts).take 40
    let p := processBatch remote c batch
    let q := goBatches remote fuel p.snd ((t :: ts).drop 40)
    (p.fst ++ q.fst, q.snd)

/-- Source `deeplTranslateLinesKoToJa(lines)`: pass-through copy when no DeepL key
is configured (`if (!DEEPL_KEY || !TRANSLATE_URL) return lines.slice()`),
otherwise the batch loop over chunks of 40.  Returns the output lines
together with the final cache state. -/
def deeplTranslateLinesKoToJa (hasKey : Bool)
    (remote : List String → Option (List String)) (c : Cache)
    (lines : List String) : List String × Cache :=
  if hasKey then goBatches remote lines.length c lines else (lines, c)

/- ───────────────── Translation batcher lemmas ───────────────── -/

theorem zipWith_getD_map (g : String → Option String) (l : List String) :
    List.zipWith (fun v t => v.getD t) (l.map g) l
      = l.map (fun t => (g t).getD t) := by
  induction l with
  | nil => rfl
  | cons t ts ih => simp [ih]

theorem fillNeeds_fst_length : ∀ (arr : List String)
    (cached : List (Option String)) (batch : List String) (c : Cache),
    cached.length = batch.length →
    (fillNeeds arr cached batch c).fst.length = cached.length := by
  intro arr cached
  induction cached generalizing arr with
  | nil => intro batch c _; simp [fillNeeds]
  | cons v vs ih =>
    intro batch c hlen
    cases batch with
    | nil => simp at hlen
    | cons t ts =>
      cases v with
      | some x => simpa [fillNeeds] using ih arr ts _ (by simpa using hlen)
      | none => simpa [fillNeeds] using ih arr.tail ts _ (by simpa using hlen)

theorem fillNeeds_getElem_some : ∀ (arr : List String)
    (cached : List (Option String)) (batch : List String) (c : Cache)
    (i : Nat) (v : String),
    cached.length = batch.length → cached[i]? = some (some v) →
    (fillNeeds arr cached batch c).fst[i]? = some (some v) := by
  intro arr cached
  induction cached generalizing arr with
  | nil => intro batch c i v _ hv; simp at hv
  | cons w vs ih =>
    intro batch c i v hlen hv
    cases batch with
    | nil => simp at hlen
    | cons t ts =>
      cases i with
      | zero =>
        simp at hv
        cases w with
        | some x => simp [fillNeeds, hv]
        | none => simp at hv
      | succ j =>
        simp at hv
        cases w with
        | some x =>
          simpa [fillNeeds] using ih arr ts _ j v (by simpa using hlen) hv
        | none =>
          simpa [fillNeeds] using ih arr.tail ts _ j v (by simpa using hlen) hv

theorem needTexts_of_all_some :
    ∀ (cached : List (Option String)) (ts : List String),
    (∀ v ∈ cached, ∃ x, v = some x) → needTexts cached ts = [] := by
  intro cached
  induction cached with
  | nil => intro ts _; rfl
  | cons v vs ih =>
    intro ts hall
    cases ts with
    | nil => cases v <;> rfl
    | cons t ts' =>
      obtain ⟨x, rfl⟩ := hall v (List.mem_cons_self v vs)
      exact ih ts' fun w hw => hall w (List.mem_cons_of_mem _ hw)

theorem batchRequest_eq_filter (c : Cache) (batch : List String) :
    batchRequest c batch
      = batch.filter (fun t => (cacheGetTruthy c (transKey t)).isNone) := by
  induction batch with
  | nil => rfl
  | cons t ts ih =>
    have hstep : batchRequest c (t :: ts)
        = needTexts (cacheGetTruthy c (transKey t) :: cachedOf c ts) (t :: ts) := rfl
    cases hg : cacheGetTruthy c (transKey t) with
    | none =>
      rw [hstep, hg]
      simpa [needTexts, List.filter, hg] using ih
    | some v =>
      rw [hstep, hg]
      simpa [needTexts, List.filter, hg] using ih

theorem processBatch_fst_length (remote : List String → Option (List String))
    (c : Cache) (batch : List String) :
    (processBatch remote c batch).fst.length = batch.length := by
  have hc : (cachedOf c batch).length = batch.length := by simp [cachedOf]
  simp only [processBatch]
  split_ifs with h
  · simp [List.length_zipWith, hc]
  · cases hr : remote (batchRequest c batch) with
    | none => simp [List.length_zipWith, hc]
    | some arr =>
      simp [List.length_zipWith, fillNeeds_fst_length arr _ _ c hc, hc]

theorem processBatch_fail (remote : List String → Option (List String))
    (c : Cache) (batch : List String)
    (hfail : remote (batchRequest c batch) = none) :
    processBatch remote c batch
      = (batch.map (fun t => (cacheGetTruthy c (transKey t)).getD t), c) := by
  simp only [processBatch]
  split_ifs with h
  · rw [cachedOf, zipWith_getD_map]
  · rw [hfail, cachedOf, zipWith_getD_map]

theorem processBatch_all_cached (remote : List String → Option (List String))
    (c : Cache) (batch : List String) (f : String → String)
    (hall : ∀ t ∈ batch, cacheGetTruthy c (transKey t) = some (f t)) :
    processBatch remote c batch = (batch.map f, c) := by
  have hcached : cachedOf c batch = batch.map (fun t => some (f t)) :=
    List.map_congr_left hall
  have hreq : batchRequest c batch = [] := by
    rw [batchRequest, hcached]
    exact needTexts_of_all_some _ _ (by
      intro v hv
      obtain ⟨t, _, rfl⟩ := List.mem_map.mp hv
      exact ⟨f t, rfl⟩)
  simp only [processBatch, hreq]
  simp [hcached, zipWith_getD_map]

theorem processBatch_cached_preserved
    (remote : List String → Option (List String)) (c : Cache)
    (batch : List String) (i : Nat) (hi : i < batch.length) (v : String)
    (hv : cacheGetTruthy c (transKey batch[i]) = some v) :
    (processBatch remote c batch).fst[i]? = some v := by
  have hc : (cachedOf c batch).length = batch.length := by simp [cachedOf]
  have hci : (cachedOf c batch)[i]? = some (some v) := by
    simp [cachedOf, List.getElem?_map, List.getElem?_eq_getElem hi, hv]
  have hbi : batch[i]? = some batch[i] := List.getElem?_eq_getElem hi
  simp only [processBatch]
  split_ifs with h
  · simp [List.getElem?_zipWith, hci, hbi]
  · cases hr : remote (batchRequest c batch) with
    | none => simp [List.getElem?_zipWith, hci, hbi]
    | some arr =>
      simp [List.getElem?_zipWith, fillNeeds_getElem_some arr _ _ c i v hc hci, hbi]

theorem goBatches_fst_length (remote : List String → Option (List String)) :
    ∀ (fuel : Nat) (c : Cache) (lines : List String), lines.length ≤ fuel →
    (goBatches remote fuel c lines).fst.length = lines.length := by
  intro fuel
  induction fuel with
  | zero =>
    intro c lines hlen
    interval_cases h : lines.length
    · rw [List.length_eq_zero.mp h]
      rfl
  | succ fuel ih =>
    intro c lines hlen
    cases lines with
    | nil => rfl
    | cons t ts =>
      have hdrop : ((t :: ts).drop 40).length ≤ fuel := by
        simp only [List.length_drop]
        simp at hlen ⊢
        omega
      simp only [goBatches, List.length_append,
        processBatch_fst_length, ih _ _ hdrop]
      simp [List.length_take, List.length_drop]
      omega

theorem goBatches_fail (remote : List String → Option (List String))
    (hfail : ∀ req, remote req = none) :
    ∀ (fuel : Nat) (c : Cache) (lines : List String), lines.length ≤ fuel →
    goBatches remote fuel c lines
      = (lines.map (fun t => (cacheGetTruthy c (transKey t)).getD t), c) := by
  intro fuel
  induction fuel with
  | zero =>
    intro c lines hlen
    interval_cases h : lines.length
    · rw [List.length_eq_zero.mp h]
      rfl
  | succ fuel ih =>
    intro c lines hlen
    cases lines with
    | nil => rfl
    | cons t ts =>
      have hdrop : ((t :: ts).drop 40).length ≤ fuel := by
        simp only [List.length_drop]
        simp at hlen ⊢
        omega
      simp only [goBatches, processBatch_fail remote c _ (hfail _), ih _ _ hdrop]
      rw [← List.map_append, List.take_append_drop]

theorem goBatches_all_cached (remote : List String → Option (List String))
    (f : String → String) :
    ∀ (fuel : Nat) (c : Cache) (lines : List String),
    (∀ t ∈ lines, cacheGetTruthy c (transKey t) = some (f t)) →
    lines.length ≤ fuel →
    goBatches remote fuel c lines = (lines.map f, c) := by
  intro fuel
  induction fuel with
  | zero =>
    intro c lines _ hlen
    interval_cases h : lines.length
    · rw [List.length_eq_zero.mp h]
      rfl
  | succ fuel ih =>
    intro c lines hall hlen
    cases lines with
    | nil => rfl
    | cons t ts =>
      have hdrop : ((t :: ts).drop 40).length ≤ fuel := by
        simp only [List.length_drop]
        simp at hlen ⊢
        omega
      have htake : ∀ x ∈ (t :: ts).take 40, cacheGetTruthy c (transKey x) = some (f x) :=
        fun x hx => hall x (List.take_subset 40 _ hx)
      have hdropmem : ∀ x ∈ (t :: ts).drop 40, cacheGetTruthy c (transKey x) = some (f x) :=
        fun x hx => hall x (List.drop_subset 40 _ hx)
      simp only [goBatches, processBatch_all_cached remote c _ f htake,
        ih _ _ hdropmem hdrop]
      rw [← List.map_append, List.take_append_drop]

/-- C3:
Translation batcher length/order invariant: for every input sequence the
output has the same length; with no translation backend configured
(`hasKey = false`) the input is returned unchanged (with the cache
untouched); and positionally, whenever every line is cached under its own
key, the output at each position is exactly the cached translation of the
input line at that position. -/
theorem deeplTranslateLines_length_order (hasKey : Bool)
    (remote : List String → Option (List String)) (c : Cache)
    (lines : List String) (f : String → String) :
    (deeplTranslateLinesKoToJa hasKey remote c lines).fst.length = lines.length
      ∧ deeplTranslateLinesKoToJa false remote c lines = (lines, c)
      ∧ ((∀ t ∈ lines, cacheGetTruthy c (transKey t) = some (f t)) →
          (deeplTranslateLinesKoToJa true remote c lines).fst = lines.map f) := by
  refine ⟨?_, rfl, ?_⟩
  · cases hasKey with
    | false => rfl
    | true =>
      simp only [deeplTranslateLinesKoToJa, if_pos]
      exact goBatches_fst_length remote lines.length c lines (le_refl _)
  · intro hall
    simp only [deeplTranslateLinesKoToJa, if_pos]
    rw [goBatches_all_cached remote f lines.length c lines hall (le_refl _)]

/-- Witness for C3 at concrete inputs: pass-through without a key, and
cached lines returned positionally with a key. -/
theorem deeplTranslateLines_length_order_witness :
    deeplTranslateLinesKoToJa false (fun _ => none) [] ["a", "b"] = (["a", "b"], [])
      ∧ (deeplTranslateLinesKoToJa true (fun _ => none)
          [("ko->ja:a", "x"), ("ko->ja:b", "y")] ["a", "b"]).fst = ["x", "y"] :=
  ⟨(deeplTranslateLines_length_order false (fun _ => none) [] ["a", "b"] id).2.1,
    ((deeplTranslateLines_length_order true (fun _ => none)
        [("ko->ja:a", "x"), ("ko->ja:b", "y")] ["a", "b"]
        (fun t => if t = "a" then "x" else "y")).2.2 (by decide)).trans (by decide)⟩

/-- C2:
Translation batch failure fallback: when every remote call fails
(non-success HTTP status, `remote req = none`), the batcher still returns
normally, every line resolves purely from the pre-existing cache, and in
particular every line that needed translation (cache miss) comes back as
the original source text unchanged — no partial translation. -/
theorem deeplTranslateLines_remote_failure
    (remote : List String → Option (List String)) (c : Cache)
    (lines : List String) (hfail : ∀ req, remote req = none) :
    (deeplTranslateLinesKoToJa true remote c lines).fst
        = lines.map (fun t => (cacheGetTruthy c (transKey t)).getD t)
      ∧ ∀ (i : Nat) (hi : i < lines.length),
          cacheGetTruthy c (transKey lines[i]) = none →
          (deeplTranslateLinesKoToJa true remote c lines).fst[i]? = some lines[i] := by
  have hmain : deeplTranslateLinesKoToJa true remote c lines
      = (lines.map (fun t => (cacheGetTruthy c (transKey t)).getD t), c) := by
    simp only [deeplTranslateLinesKoToJa, if_pos]
    exact goBatches_fail remote hfail lines.length c lines (le_refl _)
  refine ⟨by rw [hmain], ?_⟩
  intro i hi hmiss
  rw [hmain]
  simp [List.getElem?_map, List.getElem?_eq_getElem hi, hmiss]

/-- Witness for C2: with one cached line and one uncached line and a
failing remote, the cached line resolves from cache and the uncached line
falls back to its source text. -/
theorem deeplTranslateLines_remote_failure_witness :
    (deeplTranslateLinesKoToJa true (fun _ => none)
        [("ko->ja:a", "x")] ["a", "b"]).fst = ["x", "b"]
      ∧ (deeplTranslateLinesKoToJa true (fun _ => none)
          [("ko->ja:a", "x")] ["a", "b"]).fst[1]? = some "b" :=
  ⟨((deeplTranslateLines_remote_failure (fun _ => none) [("ko->ja:a", "x")]
      ["a", "b"] (fun _ => rfl)).1).trans (by decide),
    (deeplTranslateLines_remote_failure (fun _ => none) [("ko->ja:a", "x")]
      ["a", "b"] (fun _ => rfl)).2 1 (by decide) (by decide)⟩

/-- C4:
Translation partial-cache correctness: the remote request for a batch
carries exactly the lines without a cached translation, in order; and the
output at every cached position is the cached value unchanged, whatever
the remote translator answers. -/
theorem deeplTranslateLines_partial_cache
    (remote : List String → Option (List String)) (c : Cache)
    (batch : List String) :
    batchRequest c batch
        = batch.filter (fun t => (cacheGetTruthy c (transKey t)).isNone)
      ∧ ∀ (i : Nat) (hi : i < batch.length) (v : String),
          cacheGetTruthy c (transKey batch[i]) = some v →
          (processBatch remote c batch).fst[i]? = some v :=
  ⟨batchRequest_eq_filter c batch,
    fun i hi v hv => processBatch_cached_preserved remote c batch i hi v hv⟩

/-- Witness for C4: with line "a" cached as "x" and line "b" uncached, the
remote request is exactly ["b"] and position 0 of the output is the cached
"x", even though the remote returns a translation. -/
theorem deeplTranslateLines_partial_cache_witness :
    batchRequest [("ko->ja:a", "x")] ["a", "b"] = ["b"]
      ∧ (processBatch (fun _ => some ["tb"])
          [("ko->ja:a", "x")] ["a", "b"]).fst[0]? = some "x" :=
  ⟨((deeplTranslateLines_partial_cache (fun _ => some ["tb"])
      [("ko->ja:a", "x")] ["a", "b"]).1).trans (by decide),
    (deeplTranslateLines_partial_cache (fun _ => some ["tb"])
      [("ko->ja:a", "x")] ["a", "b"]).2 0 (by decide) "x" (by decide)⟩

/-- C9:
Frame property of the translation fallback: when the remote call for a
batch fails (non-success status), no translation-cache entry is written —
the cache returned by the batcher equals the input cache, both for a single
batch (`processBatch`) and for a whole run over all batches; cache writes
happen only on the success path. -/
theorem deeplTranslateLines_failure_no_cache_write
    (remote : List String → Option (List String)) (c : Cache)
    (lines batch : List String) (hfail : ∀ req, remote req = none) :
    (deeplTranslateLinesKoToJa true remote c lines).snd = c
      ∧ (processBatch remote c batch).snd = c := by
  constructor
  · simp only [deeplTranslateLinesKoToJa, if_pos]
    rw [goBatches_fail remote hfail lines.length c lines (le_refl _)]
  · rw [processBatch_fail remote c batch (hfail _)]

/-- Witness for C9: a failing remote call leaves a concrete cache
unchanged. -/
theorem deeplTranslateLines_failure_no_cache_write_witness :
    (deeplTranslateLinesKoToJa true (fun _ => none)
        [("ko->ja:a", "x")] ["a", "b"]).snd = [("ko->ja:a", "x")]
      ∧ (processBatch (fun _ => none) [("ko->ja:a", "x")] ["b"]).snd
        = [("ko->ja:a", "x")] :=
  deeplTranslateLines_failure_no_cache_write (fun _ => none)
    [("ko->ja:a", "x")] ["a", "b"] ["b"] (fun _ => rfl)

/- ───────────────── Song records and the by-month sampler ───────────────── -/

/-- A normalized song record as produced by `fetchSong`. -/
structure Song where
  year : Nat
  month : Nat
  rank : Nat
  title : String
  artist : String
  genre : String
  lines : List String
deriving DecidableEq, Repr

/- `pickOneFromMonth(year, month)` draws `1 + Math.floor(Math.random()*100)`
each iteration; randomness is modelled by an oracle `ranks : Nat → Nat`
giving the value of `Math.floor(Math.random()*100)` at iteration `i`
(reduced `% 100`, since `Math.random()` lies in `[0,1)`).  `fetchSong` for
the fixed month is the oracle `fetch : Nat → Option Song`, where `none`
models a throw (absent/malformed record, caught by the empty `catch`). -/

/-- The loop `for (let i = 0; i < 60; i++)` of `pickOneFromMonth`: skip
ranks already in `tried`, fetch fresh ones, return the first record with at
least one lyric line.  Alongside the result, the list of ranks actually
fetched is returned (in fetch order) as an observable trace.  The fuel is
the remaining iteration count, starting at 60. -/
def pickGo (fetch : Nat → Option Song) (ranks : Nat → Nat) :
    Nat → List Nat → Nat → Option Song × List Nat
  | 0, _, _ => (none, [])
  | fuel + 1, tried, i =>
    let rank := 1 + ranks i % 100
    if rank ∈ tried then pickGo fetch ranks fuel tried (i + 1)
    else
      match fetch rank with
      | some s =>
        if s.lines.isEmpty then
          let p := pickGo fetch ranks fuel (rank :: tried) (i + 1)
          (p.fst, rank :: p.snd)
        else (some s, [rank])
      | none =>
        let p := pickGo fetch ranks fuel (rank :: tried) (i + 1)
        (p.fst, rank :: p.snd)

/-- Source `pickOneFromMonth`: at most 60 iterations starting from an empty
`tried` set; a `none` result models `throw new Error('no_song_in_month')`.
The second component is the trace of fetched ranks. -/
def pickOneFromMonth (fetch : Nat → Option Song) (ranks : Nat → Nat) :
    Option Song × List Nat :=
  pickGo fetch ranks 60 [] 0

theorem pickGo_fst_none (fetch : Nat → Option Song) (ranks : Nat → Nat)
    (hempty : ∀ r s, fetch r = some s → s.lines = []) :
    ∀ (fuel : Nat) (tried : List Nat) (i : Nat),
    (pickGo fetch ranks fuel tried i).fst = none := by
  intro fuel
  induction fuel with
  | zero => intro tried i; rfl
  | succ fuel ih =>
    intro tried i
    simp only [pickGo]
    split_ifs with hmem
    · exact ih tried (i + 1)
    · cases hf : fetch (1 + ranks i % 100) with
      | some s =>
        have : s.lines.isEmpty = true := by
          simp [hempty _ _ hf]
        simp [this, ih]
      | none => simp [ih]

theorem pickGo_trace_nodup (fetch : Nat → Option Song) (ranks : Nat → Nat) :
    ∀ (fuel : Nat) (tried : List Nat) (i : Nat),
    (∀ r ∈ (pickGo fetch ranks fuel tried i).snd, r ∉ tried)
      ∧ (pickGo fetch ranks fuel tried i).snd.Nodup := by
  intro fuel
  induction fuel with
  | zero => intro tried i; simp [pickGo]
  | succ fuel ih =>
    intro tried i
    simp only [pickGo]
    split_ifs with hmem
    · exact ih tried (i + 1)
    · cases hf : fetch (1 + ranks i % 100) with
      | some s =>
        by_cases hl : s.lines.isEmpty
        · obtain ⟨hdisj, hnd⟩ := ih ((1 + ranks i % 100) :: tried) (i + 1)
          simp only [hl, if_true]
          constructor
          · intro r hr
            rcases List.mem_cons.mp hr with rfl | hr'
            · exact hmem
            · intro hrt
              exact hdisj r hr' (List.mem_cons_of_mem _ hrt)
          · refine List.nodup_cons.mpr ⟨?_, hnd⟩
            intro hin
            exact hdisj _ hin (List.mem_cons_self _ _)
        · simp only [hl, if_false]
          simp [hmem]
      | none =>
        obtain ⟨hdisj, hnd⟩ := ih ((1 + ranks i % 100) :: tried) (i + 1)
        constructor
        · intro r hr
          rcases List.mem_cons.mp hr with rfl | hr'
          · exact hmem
          · intro hrt
            exact hdisj r hr' (List.mem_cons_of_mem _ hrt)
        · refine List.nodup_cons.mpr ⟨?_, hnd⟩
          intro hin
          exact hdisj _ hin (List.mem_cons_self _ _)

theorem pickGo_trace_length (fetch : Nat → Option Song) (ranks : Nat → Nat) :
    ∀ (fuel : Nat) (tried : List Nat) (i : Nat),
    (pickGo fetch ranks fuel tried i).snd.length ≤ fuel := by
  intro fuel
  induction fuel with
  | zero => intro tried i; simp [pickGo]
  | succ fuel ih =>
    intro tried i
    simp only [pickGo]
    split_ifs with hmem
    · exact le_trans (ih tried (i + 1)) (Nat.le_succ fuel)
    · cases hf : fetch (1 + ranks i % 100) with
      | some s =>
        by_cases hl : s.lines.isEmpty
        · simpa [hl] using Nat.succ_le_succ (ih ((1 + ranks i % 100) :: tried) (i + 1))
        · simp [hl]
      | none =>
        simpa using Nat.succ_le_succ (ih ((1 + ranks i % 100) :: tried) (i + 1))

/-- C5:
Sampler termination and bound: against a fetch oracle that never yields a
record with at least one line, `pickOneFromMonth` fails (returns `none`,
modelling `no_song_in_month`) — it is a total function running at most its
configured bound of 60 iterations, so its fetch trace has at most 60
entries; and the trace never contains the same rank twice (sampling without
replacement), for every rank oracle. -/
theorem pickOneFromMonth_termination (fetch : Nat → Option Song)
    (ranks : Nat → Nat) (hempty : ∀ r s, fetch r = some s → s.lines = []) :
    (pickOneFromMonth fetch ranks).fst = none
      ∧ (pickOneFromMonth fetch ranks).snd.Nodup
      ∧ (pickOneFromMonth fetch ranks).snd.length ≤ 60 :=
  ⟨pickGo_fst_none fetch ranks hempty 60 [] 0,
    (pickGo_trace_nodup fetch ranks 60 [] 0).2,
    pickGo_trace_length fetch ranks 60 [] 0⟩

/-- Witness for C5: a fetch oracle with no records at all (every fetch
throws) makes the sampler fail within the bound, with distinct ranks. -/
theorem pickOneFromMonth_termination_witness :
    (pickOneFromMonth (fun _ => none) (fun i => i)).fst = none
      ∧ (pickOneFromMonth (fun _ => none) (fun i => i)).snd.Nodup
      ∧ (pickOneFromMonth (fun _ => none) (fun i => i)).snd.length ≤ 60 :=
  pickOneFromMonth_termination (fun _ => none) (fun i => i)
    (fun _ _ h => nomatch h)

/- ───────────────── Genre filter ─────────────────

`norm = (s) => String(s || '').toLowerCase().replace(/[^L N classes]+/gu, '')`.
Unicode case mapping and the Unicode letter/number classification of the
regex are modelled as parameters `lower : Char → Char` (per-character
simple lowercase mapping) and `alnum : Char → Bool` (membership in the
letter/number categories), since their full tables are external to the
source.  Substring containment (`String.prototype.includes`) is `hasSub`. -/

/-- Source `norm`: lowercase the text, then strip every character that is not a
Unicode letter or number.  Returns the character list of the result. -/
def norm (lower : Char → Char) (alnum : Char → Bool) (s : String) : List Char :=
  (s.data.map lower).filter alnum

/-- Test that `hay` starts with `needle`. -/
def leadMatch : List Char → List Char → Bool
  | [], _ => true
  | _ :: _, [] => false
  | a :: as, b :: bs => a == b && leadMatch as bs

/-- JS `hay.includes(needle)`: `needle` occurs contiguously in `hay`. -/
def hasSub (needle : List Char) : List Char → Bool
  | [] => leadMatch needle []
  | b :: bs => leadMatch needle (b :: bs) || hasSub needle bs

/-- The acceptance test of `pickByGenre`:
`norm(s.genre).includes(wanted)` with `wanted = norm(genre)`. -/
def genreAccept (lower : Char → Char) (alnum : Char → Bool)
    (genreQuery : String) (s : Song) : Bool :=
  hasSub (norm lower alnum genreQuery) (norm lower alnum s.genre)

/-- The retry loop of `pickByGenre` (350 iterations): `oracle i` models the
result of `pickOneFromMonth` at a random `(year, month)` in iteration `i`
(`none` = that month failed, caught and retried). -/
def pickByGenreGo (lower : Char → Char) (alnum : Char → Bool)
    (oracle : Nat → Option Song) (wanted : List Char) :
    Nat → Nat → Option Song
  | 0, _ => none
  | fuel + 1, i =>
    match oracle i with
    | some s =>
      if hasSub wanted (norm lower alnum s.genre) then some s
      else pickByGenreGo lower alnum oracle wanted fuel (i + 1)
    | none => pickByGenreGo lower alnum oracle wanted fuel (i + 1)

/-- Source `pickByGenre(genre)`: normalize the query once, then retry up to 350
times; `none` models `throw new Error('no_song_for_genre')`. -/
def pickByGenre (lower : Char → Char) (alnum : Char → Bool)
    (oracle : Nat → Option Song) (genre : String) : Option Song :=
  pickByGenreGo lower alnum oracle (norm lower alnum genre) 350 0

theorem leadMatch_iff : ∀ (needle hay : List Char),
    leadMatch needle hay = true ↔ ∃ post, hay = needle ++ post := by
  intro needle
  induction needle with
  | nil => intro hay; simp [leadMatch]
  | cons a as ih =>
    intro hay
    cases hay with
    | nil =>
      simp [leadMatch]
    | cons b bs =>
      rw [leadMatch]
      simp only [Bool.and_eq_true, beq_iff_eq, ih bs]
      constructor
      · rintro ⟨rfl, post, rfl⟩
        exact ⟨post, rfl⟩
      · rintro ⟨post, heq⟩
        simp only [List.cons_append, List.cons.injEq] at heq
        exact ⟨heq.1.symm, post, heq.2⟩

theorem hasSub_iff : ∀ (needle hay : List Char),
    hasSub needle hay = true ↔ ∃ pre post, hay = pre ++ needle ++ post := by
  intro needle hay
  induction hay with
  | nil =>
    rw [hasSub, leadMatch_iff]
    constructor
    · rintro ⟨post, heq⟩
      exact ⟨[], post, by simpa using heq⟩
    · rintro ⟨pre, post, heq⟩
      have h0 : pre = [] ∧ needle = [] ∧ post = [] := by simpa using heq.symm
      exact ⟨[], by simp [h0.2.1]⟩
  | cons b bs ih =>
    rw [hasSub]
    simp only [Bool.or_eq_true, leadMatch_iff, ih]
    constructor
    · rintro (⟨post, heq⟩ | ⟨pre, post, heq⟩)
      · exact ⟨[], post, by simpa using heq⟩
      · exact ⟨b :: pre, post, by simp [heq]⟩
    · rintro ⟨pre, post, heq⟩
      cases pre with
      | nil =>
        exact Or.inl ⟨post, by simpa using heq⟩
      | cons p ps =>
        simp only [List.cons_append, List.cons.injEq] at heq
        exact Or.inr ⟨ps, post, heq.2⟩

theorem pickByGenreGo_accept (lower : Char → Char) (alnum : Char → Bool)
    (oracle : Nat → Option Song) (wanted : List Char) :
    ∀ (fuel i : Nat) (s : Song),
    pickByGenreGo lower alnum oracle wanted fuel i = some s →
    hasSub wanted (norm lower alnum s.genre) = true := by
  intro fuel
  induction fuel with
  | zero => intro i s h; simp [pickByGenreGo] at h
  | succ fuel ih =>
    intro i s h
    rw [pickByGenreGo] at h
    cases ho : oracle i with
    | some s' =>
      rw [ho] at h
      have h' : (if hasSub wanted (norm lower alnum s'.genre) = true then some s'
          else pickByGenreGo lower alnum oracle wanted fuel (i + 1)) = some s := h
      by_cases hacc : hasSub wanted (norm lower alnum s'.genre) = true
      · rw [if_pos hacc] at h'
        cases h'
        exact hacc
      · rw [if_neg hacc] at h'
        exact ih (i + 1) s h'
    | none =>
      rw [ho] at h
      exact ih (i + 1) s h

/-- C6 (amended):
Genre filter semantics: the by-genre sampler accepts a candidate exactly
when the normalized query occurs as a contiguous substring of the
candidate's normalized genre, where normalization lowercases the text and
strips all non-alphanumeric characters (Unicode-aware); the match is
case-insensitive because both sides are lowercased, but diacritics are
preserved by the normalization, so it is NOT diacritic-insensitive.
Moreover `pickByGenre` only ever returns accepted candidates. -/
theorem pickByGenre_filter_semantics (lower : Char → Char)
    (alnum : Char → Bool) (genreQuery : String) (s : Song) :
    (genreAccept lower alnum genreQuery s = true ↔
        ∃ pre post, norm lower alnum s.genre
          = pre ++ norm lower alnum genreQuery ++ post)
      ∧ ∀ (oracle : Nat → Option Song) (s' : Song),
          pickByGenre lower alnum oracle genreQuery = some s' →
          genreAccept lower alnum genreQuery s' = true :=
  ⟨hasSub_iff _ _,
    fun oracle s' h => pickByGenreGo_accept lower alnum oracle _ 350 0 s' h⟩

/-- Witness for C6: with the ASCII fragment of the Unicode tables, query
"pop" is accepted against genre "K-POP!" (case-insensitive, punctuation
stripped), and the sampler returns that candidate. -/
theorem pickByGenre_filter_semantics_witness :
    genreAccept Char.toLower Char.isAlphanum "pop"
      ⟨2020, 5, 7, "t", "a", "K-POP!", ["l"]⟩ = true :=
  (pickByGenre_filter_semantics Char.toLower Char.isAlphanum "pop"
      ⟨2020, 5, 7, "t", "a", "K-POP!", ["l"]⟩).2
    (fun _ => some ⟨2020, 5, 7, "t", "a", "K-POP!", ["l"]⟩)
    ⟨2020, 5, 7, "t", "a", "K-POP!", ["l"]⟩ (by decide)

/-- Fragment of the Unicode simple lowercase mapping used by JS
`toLowerCase`, covering the characters of the diacritic example: ASCII
letters map as usual and U+00C9 'É' maps to U+00E9 'é'. -/
def uniLower (c : Char) : Char := if c = 'É' then 'é' else c.toLower

/-- Fragment of the Unicode letter/number classification `\p{L}\p{N}`
used by the regex in `norm`: ASCII alphanumerics plus 'é'/'É' (both are
Unicode letters). -/
def uniAlnum (c : Char) : Bool := c.isAlphanum || c = 'é' || c = 'É'

/-- Counterexample to C6 as stated: the match is not diacritic-insensitive.
The query "cafe" is rejected against genre "Café" although the two differ
only in case and the diacritic on the final letter, while the query "café"
(same letters with the diacritic) is accepted — normalization preserves
diacritics. -/
theorem pickByGenre_not_diacritic_insensitive :
    genreAccept uniLower uniAlnum "cafe"
        ⟨2020, 5, 7, "t", "a", "Café", ["l"]⟩ = false
      ∧ genreAccept uniLower uniAlnum "café"
        ⟨2020, 5, 7, "t", "a", "Café", ["l"]⟩ = true := by decide

/- ───────────────── Annotation stage and response assembler ───────────────── -/

/-- Source `makeRubyFromJaLineAsync(line)`: empty line short-circuits to "", a
truthy cached annotation is returned as-is, otherwise the converter runs
(`kuro.convert`, modelled as the oracle `conv`) and its output is cached
under `ruby:<line>`.  Returns the annotation with the updated cache. -/
def makeRubyFromJaLineAsync (conv : String → String) (c : Cache)
    (line : String) : String × Cache :=
  if line = "" then ("", c)
  else
    match cacheGetTruthy c ("ruby:" ++ line) with
    | some hit => (hit, c)
    | none =>
      let out := conv line
      (out, cacheSet c ("ruby:" ++ line) out)

/-- The quiz payload returned by the routes. -/
structure QuizPayload where
  year : Nat
  month : Nat
  rank : Nat
  title : String
  artist : String
  genre : String
  code : String
  lyricsKoLines : List String
  lyricsJaLines : List String
  lyricsJaRubyLines : List String
deriving DecidableEq, Repr

/-- Source `packResponseAsync(song, jaLines, koLines)`.  The concurrent
`Promise.all(jaLines.map(makeRubyFromJaLineAsync))` is modelled as an
order-preserving map in which each line is annotated against the cache
state at call time (the interleaving of concurrent per-line cache writes
is not modelled; no claim depends on it). -/
def packResponseAsync (conv : String → String) (c : Cache) (song : Song)
    (jaLines koLines : List String) : QuizPayload :=
  { year := song.year
    month := song.month
    rank := song.rank
    title := song.title
    artist := song.artist
    genre := if song.genre = "" then "" else song.genre
    code := makeCode song.year song.month song.rank
    lyricsKoLines := koLines
    lyricsJaLines := jaLines
    lyricsJaRubyLines :=
      jaLines.map (fun l => (makeRubyFromJaLineAsync conv c l).fst) }

/-- C8:
Response assembler length invariant: whenever the translated sequence has
the same length as the source sequence, the three line sequences of the
assembled payload (`lyricsKoLines`, `lyricsJaLines`, `lyricsJaRubyLines`)
all have equal length, and the annotated sequence is the annotation of the
translated sequence position by position (same order). -/
theorem packResponse_length_invariant (conv : String → String) (c : Cache)
    (song : Song) (jaLines koLines : List String)
    (hlen : jaLines.length = koLines.length) :
    ((packResponseAsync conv c song jaLines koLines).lyricsKoLines.length
        = (packResponseAsync conv c song jaLines koLines).lyricsJaLines.length)
      ∧ ((packResponseAsync conv c song jaLines koLines).lyricsJaLines.length
        = (packResponseAsync conv c song jaLines koLines).lyricsJaRubyLines.length)
      ∧ (packResponseAsync conv c song jaLines koLines).lyricsJaRubyLines
        = jaLines.map (fun l => (makeRubyFromJaLineAsync conv c l).fst) :=
  ⟨by simp [packResponseAsync, hlen], by simp [packResponseAsync], rfl⟩

/-- Witness for C8 at a concrete record with two lines. -/
theorem packResponse_length_invariant_witness :
    ((packResponseAsync (fun l => l ++ "*") [] ⟨2020, 5, 7, "t", "a", "g", []⟩
        ["j1", "j2"] ["k1", "k2"]).lyricsKoLines.length
      = (packResponseAsync (fun l => l ++ "*") [] ⟨2020, 5, 7, "t", "a", "g", []⟩
        ["j1", "j2"] ["k1", "k2"]).lyricsJaLines.length)
      ∧ ((packResponseAsync (fun l => l ++ "*") [] ⟨2020, 5, 7, "t", "a", "g", []⟩
        ["j1", "j2"] ["k1", "k2"]).lyricsJaLines.length
      = (packResponseAsync (fun l => l ++ "*") [] ⟨2020, 5, 7, "t", "a", "g", []⟩
        ["j1", "j2"] ["k1", "k2"]).lyricsJaRubyLines.length)
      ∧ (packResponseAsync (fun l => l ++ "*") [] ⟨2020, 5, 7, "t", "a", "g", []⟩
        ["j1", "j2"] ["k1", "k2"]).lyricsJaRubyLines
      = ["j1", "j2"].map (fun l =>
          (makeRubyFromJaLineAsync (fun l => l ++ "*") [] l).fst) :=
  packResponse_length_invariant (fun l => l ++ "*") []
    ⟨2020, 5, 7, "t", "a", "g", []⟩ ["j1", "j2"] ["k1", "k2"] (by decide)

end Utatle
